import Mathlib

/-!
# OverdriveAAP: the per-block signal path of `Source/PluginProcessor.cpp`

A shallow embedding of `OverdriveAAPAudioProcessor::processBlock`, its helper
`signum` and `prepareToPlay`, followed by theorems about them.

Modelling conventions

* A `float` sample is a rational number. In the main embedding (`shapeSample`)
  every arithmetic operation of the source is taken exactly, so `1.0f / 3.0f`
  is `1/3` and `0.99f` is `99/100`; the one constant kept at its stored
  binary32 value is `thresh2`, because the curve jumps there. Statements that
  bound a product away from `thresh2` do so by one binary32 step, so that they
  remain true when the product is rounded.
* A second embedding of the loop body (`shapeSample32`) rounds every operation
  to binary32 (`round32`); it serves where the exact value of a rounded result
  matters. Infinities, NaN and the subnormal range are outside both.
* `juce::AudioBuffer<float>` is a list of channels, each a list of samples.
* Mutation of the processor object and of the buffer is explicit state
  passing: `processBlock` returns the new processor state and the new buffer.
* `juce::dsp::DryWetMixer` is a library class whose source is not part of
  `Source/`; the operations the processor calls on it are modelled from
  the specification and marked as such. A contract violation that aborts the
  call is the `error` case of `Except`.
-/

namespace OverdriveAAP

/-! ## Data model -/

/-- Contents of a `juce::AudioBuffer<float>`: `channels × samples`. -/
abbrev AudioBuffer := List (List ℚ)

/-- Sample `i` of channel `c`, when both indices are inside the buffer. -/
def AudioBuffer.getSample (buffer : AudioBuffer) (c i : Nat) : Option ℚ :=
  (buffer[c]?).bind (fun channelData => channelData[i]?)

/-- A buffer whose samples are all zero. -/
def AudioBuffer.allZero (buffer : AudioBuffer) : Prop :=
  ∀ channelData ∈ buffer, ∀ s ∈ channelData, s = 0

/-- Apply `f channel channelData` to every channel, `channel` counting up from `k`. -/
def mapChannels (f : Nat → List ℚ → List ℚ) : Nat → AudioBuffer → AudioBuffer
  | _, [] => []
  | k, channelData :: rest => f k channelData :: mapChannels f (k + 1) rest

/-! ## The waveshaper (`processBlock`, lines 176-218, and `signum`) -/

/-- The member function `signum`: 1, -1 or 0 according to the sign of `x`. -/
def signum (x : ℚ) : Int :=
  if x > 0 then 1
  else if x < 0 then -1
  else 0

/-- The local `float thresh1 = 1.0f / 3.0f;`, taken exactly. The curve is
continuous at this breakpoint, so the two branches agree next to it. -/
def thresh1 : ℚ := 1 / 3

/-- The local `float thresh2 = 2.0f / 3.0f;`, at its stored value: the quotient
rounded to binary32 is `11184811 / 2^24`, just above `2/3`. The curve jumps at
this breakpoint, so the side of `2/3` on which the constant lies decides which
branch a sample next to it takes. -/
def thresh2 : ℚ := 11184811 / 16777216

/-- Right-hand side of the first branch: `0.99f * sign`. -/
def hardLimit (sign : Int) : ℚ :=
  (99 / 100) * (sign : ℚ)

/-- Right-hand side of the second branch:
`((3.0f - (2.0f - 3.0f * absIn) * (2.0f - 3.0f * absIn)) / 3.0f) * sign`. -/
def softKnee (absIn : ℚ) (sign : Int) : ℚ :=
  ((3 - (2 - 3 * absIn) * (2 - 3 * absIn)) / 3) * (sign : ℚ)

/-- Right-hand side of the third branch: `2.0f * in`. -/
def linearRegion (inp : ℚ) : ℚ :=
  2 * inp

/-- Body of the sample loop: the value stored to `channelData[i]` when the
sample read from it is `x` and `inputGain->get()` is `inputGain`. -/
def shapeSample (inputGain x : ℚ) : ℚ :=
  let inp := x * inputGain
  let sign := signum inp
  let absIn := |inp|
  if absIn > thresh2 then hardLimit sign
  else if absIn > thresh1 then softKnee absIn sign
  else linearRegion inp

/-- The audio processing loop: every sample of every channel below
`totalNumInputChannels` is replaced by its shaped value; the other channels
are not visited. -/
def shapingLoop (totalNumInputChannels : Nat) (inputGain : ℚ) (buffer : AudioBuffer) :
    AudioBuffer :=
  mapChannels
    (fun channel channelData =>
      if channel < totalNumInputChannels then channelData.map (shapeSample inputGain)
      else channelData)
    0 buffer

/-! ## The waveshaper in binary32 -/

/-- Round a rational to the nearest integer, a tie going to the even neighbour. -/
def roundHalfEven (q : ℚ) : Int :=
  let f := ⌊q⌋
  let r := q - f
  if r < 1 / 2 then f
  else if r > 1 / 2 then f + 1
  else if f % 2 = 0 then f
  else f + 1

/-- Round a rational to binary32: 24 significant bits, round to nearest, ties to
even. The exponent is left unbounded, so overflow and the subnormal range are
outside the model. -/
def round32 (q : ℚ) : ℚ :=
  if q = 0 then 0
  else
    let e : Int := Int.log 2 |q|
    let quantum : ℚ := 2 ^ (e - 23)
    (roundHalfEven (q / quantum) : ℚ) * quantum

/-- Body of the sample loop in binary32, for a binary32 sample `x` and gain
`inputGain`: the literals `0.99f`, `1.0f / 3.0f` and `2.0f / 3.0f` and every
`float` operation are rounded with `round32`, each operation on its own. -/
def shapeSample32 (inputGain x : ℚ) : ℚ :=
  let thresh1 := round32 (1 / 3)
  let thresh2 := round32 (2 / 3)
  let inp := round32 (x * inputGain)
  let sign := signum inp
  let absIn := |inp|
  if absIn > thresh2 then round32 (round32 (99 / 100) * (sign : ℚ))
  else if absIn > thresh1 then
    round32
      (round32
          (round32
              (3 - round32 (round32 (2 - round32 (3 * absIn))
                * round32 (2 - round32 (3 * absIn))))
            / 3)
        * (sign : ℚ))
  else round32 (2 * inp)

/-- The sample loop of one channel with the variable `out` kept explicit: `out`
is a single variable per channel, alive across the iterations; an iteration
assigns it in whichever branch it takes and then stores it to `channelData[i]`.
The second argument is the value `out` holds when the iteration starts. -/
def sampleLoop (inputGain : ℚ) : ℚ → List ℚ → List ℚ
  | _, [] => []
  | _, x :: rest =>
    let inp := x * inputGain
    let sign := signum inp
    let absIn := |inp|
    let out :=
      if absIn > thresh2 then hardLimit sign
      else if absIn > thresh1 then softKnee absIn sign
      else linearRegion inp
    out :: sampleLoop inputGain out rest

/-- The audio processing loop with `out` kept explicit: for every channel below
`totalNumInputChannels`, `float out = 0.0f;` and then the sample loop. -/
def channelLoop (totalNumInputChannels : Nat) (inputGain : ℚ) (buffer : AudioBuffer) :
    AudioBuffer :=
  mapChannels
    (fun channel channelData =>
      if channel < totalNumInputChannels then sampleLoop inputGain 0 channelData
      else channelData)
    0 buffer

/-- The loop `for (i = totalNumInputChannels; i < totalNumOutputChannels; ++i)
buffer.clear (i, 0, buffer.getNumSamples());`: the channels in that index range
are overwritten with zeros. -/
def clearSurplusChannels (totalNumInputChannels totalNumOutputChannels : Nat)
    (buffer : AudioBuffer) : AudioBuffer :=
  mapChannels
    (fun i channelData =>
      if totalNumInputChannels ≤ i ∧ i < totalNumOutputChannels then channelData.map (fun _ => 0)
      else channelData)
    0 buffer

/-! ## The dry/wet mixer -/

/-- Fields of `juce::dsp::ProcessSpec` that `prepareToPlay` fills in. -/
structure ProcessSpec where
  sampleRate : ℚ
  maximumBlockSize : Int
  numChannels : Nat
deriving DecidableEq, Repr

/-- Modelled from the spec: `juce::dsp::DryWetMixingRule` is declared in the
library, not in `Source/`. The rule the processor selects is `linear`; it is the
one mixing law the specification defines. -/
inductive DryWetMixingRule where
  | linear
deriving DecidableEq, Repr

/-- Modelled from the spec: the gains `(g_dry, g_wet)` of a mixing rule at a mix
proportion; under the linear rule `g_dry = 1 - mix` and `g_wet = mix`. -/
def DryWetMixingRule.gains : DryWetMixingRule → ℚ → ℚ × ℚ
  | .linear, mix => (1 - mix, mix)

/-- Modelled from the spec: state of `juce::dsp::DryWetMixer<float>`, whose
source is not in `Source/`: the configuration it was prepared with, the mixing
rule, the wet proportion and the stored dry snapshot. -/
structure DryWetMixer where
  spec : ProcessSpec
  mixingRule : DryWetMixingRule
  mix : ℚ
  drySamples : AudioBuffer
deriving DecidableEq, Repr

/-- Modelled from the spec: the assertion/contract violation with which
`DryWetMixer::prepare`, library code, fails fast on an invalid configuration. -/
inductive ContractViolation where
  | invalidSampleRate
  | invalidBlockSize
deriving DecidableEq, Repr

/-- Modelled from the spec: `DryWetMixer::prepare` is library code. Called with
a sample rate `≤ 0` or a block size `≤ 0` it fails fast with a contract
violation; otherwise it (re)initialises the mixer for the given configuration
and invalidates the state held from earlier blocks. -/
def DryWetMixer.prepare (mixer : DryWetMixer) (spec : ProcessSpec) :
    Except ContractViolation DryWetMixer :=
  if spec.sampleRate ≤ 0 then Except.error ContractViolation.invalidSampleRate
  else if spec.maximumBlockSize ≤ 0 then Except.error ContractViolation.invalidBlockSize
  else Except.ok { mixer with spec := spec, drySamples := [] }

/-- Modelled from the spec: `DryWetMixer::setMixingRule` is library code. It
selects the mixing law. -/
def DryWetMixer.setMixingRule (mixer : DryWetMixer) (rule : DryWetMixingRule) : DryWetMixer :=
  { mixer with mixingRule := rule }

/-- Modelled from the spec: `DryWetMixer::pushDrySamples` is library code. It
stores a copy of the buffer in its pre-shaping state, replacing the snapshot of
the previous block. -/
def DryWetMixer.pushDrySamples (mixer : DryWetMixer) (drySamples : AudioBuffer) : DryWetMixer :=
  { mixer with drySamples := drySamples }

/-- Modelled from the spec: `DryWetMixer::setWetMixProportion` is library code.
`0` is fully dry, `1` fully wet; a value outside `[0, 1]` is clamped. -/
def DryWetMixer.setWetMixProportion (mixer : DryWetMixer) (newWetMixProportion : ℚ) :
    DryWetMixer :=
  { mixer with mix := max 0 (min 1 newWetMixProportion) }

/-- Modelled from the spec: the blend of one dry and one wet sample,
`output = dry * g_dry(mix) + wet * g_wet(mix)`. -/
def DryWetMixer.blend (mixer : DryWetMixer) (dry wet : ℚ) : ℚ :=
  dry * (mixer.mixingRule.gains mixer.mix).1 + wet * (mixer.mixingRule.gains mixer.mix).2

/-- Modelled from the spec: `DryWetMixer::mixWetSamples` is library code. Per
sample and per channel it blends the stored dry snapshot with the wet buffer and
writes the result back into the buffer. -/
def DryWetMixer.mixWetSamples (mixer : DryWetMixer) (wetSamples : AudioBuffer) : AudioBuffer :=
  List.zipWith (List.zipWith mixer.blend) mixer.drySamples wetSamples

/-! ## The processor -/

/-- State of `OverdriveAAPAudioProcessor` read or written by the signal path:
the current values of the two parameters, the channel counts of the bus layout
and the mixer member. -/
structure OverdriveAAPAudioProcessor where
  inputGain : ℚ
  dryWetMix : ℚ
  totalNumInputChannels : Nat
  totalNumOutputChannels : Nat
  dryWetMixer : DryWetMixer
deriving DecidableEq, Repr

/-- The member function `prepareToPlay`: fill a `ProcessSpec` from the arguments
and the output channel count, prepare the mixer with it, then select the linear
mixing rule. The function has no check of its own; a contract violation raised
inside `prepare` ends the call. -/
def prepareToPlay (p : OverdriveAAPAudioProcessor) (sampleRate : ℚ) (samplesPerBlock : Int) :
    Except ContractViolation OverdriveAAPAudioProcessor :=
  let spec : ProcessSpec :=
    { sampleRate := sampleRate
      maximumBlockSize := samplesPerBlock
      numChannels := p.totalNumOutputChannels }
  match p.dryWetMixer.prepare spec with
  | Except.error violation => Except.error violation
  | Except.ok mixer =>
    Except.ok { p with dryWetMixer := mixer.setMixingRule DryWetMixingRule.linear }

/-- The member function `processBlock`: clear the surplus output
channels, hand the dry samples to the mixer, set the mix proportion from the
parameter, shape the input channels in place, and let the mixer blend the dry
snapshot into the buffer. Returns the processor state and the buffer after the
call. -/
def processBlock (p : OverdriveAAPAudioProcessor) (buffer : AudioBuffer) :
    OverdriveAAPAudioProcessor × AudioBuffer :=
  let buffer1 := clearSurplusChannels p.totalNumInputChannels p.totalNumOutputChannels buffer
  let mixer1 := p.dryWetMixer.pushDrySamples buffer1
  let mixer2 := mixer1.setWetMixProportion p.dryWetMix
  let buffer2 := shapingLoop p.totalNumInputChannels p.inputGain buffer1
  ({ p with dryWetMixer := mixer2 }, mixer2.mixWetSamples buffer2)

/-! ## Buffer lemmas -/

theorem mapChannels_getElem? (f : Nat → List ℚ → List ℚ) (k : Nat) (buffer : AudioBuffer)
    (c : Nat) : (mapChannels f k buffer)[c]? = (buffer[c]?).map (f (k + c)) := by
  induction buffer generalizing k c with
  | nil => simp [mapChannels]
  | cons channelData rest ih =>
    cases c with
    | zero => simp [mapChannels]
    | succ c =>
      have hk : k + 1 + c = k + (c + 1) := by omega
      simp only [mapChannels, List.getElem?_cons_succ]
      rw [ih (k + 1) c, hk]

theorem mapChannels_length (f : Nat → List ℚ → List ℚ) (k : Nat) (buffer : AudioBuffer) :
    (mapChannels f k buffer).length = buffer.length := by
  induction buffer generalizing k with
  | nil => simp [mapChannels]
  | cons channelData rest ih => simp [mapChannels, ih]

/-- The shaping loop stores `shapeSample` of the old sample at every position
of an input channel. -/
theorem getSample_shapingLoop (n : Nat) (g : ℚ) (buffer : AudioBuffer) (c i : Nat)
    (hc : c < n) :
    (shapingLoop n g buffer).getSample c i = (buffer.getSample c i).map (shapeSample g) := by
  unfold AudioBuffer.getSample shapingLoop
  rw [mapChannels_getElem?]
  cases h : buffer[c]? with
  | none => simp
  | some channelData => simp [hc, List.getElem?_map]

/-- The shaping loop leaves the channels from `totalNumInputChannels` on as they are. -/
theorem getElem?_shapingLoop_of_le (n : Nat) (g : ℚ) (buffer : AudioBuffer) (c : Nat)
    (hc : n ≤ c) : (shapingLoop n g buffer)[c]? = buffer[c]? := by
  unfold shapingLoop
  rw [mapChannels_getElem?]
  cases h : buffer[c]? with
  | none => simp
  | some channelData => simp [Nat.not_lt.mpr hc]

/-- The shaping loop maps `shapeSample` over each input channel. -/
theorem getElem?_shapingLoop_of_lt (n : Nat) (g : ℚ) (buffer : AudioBuffer) (c : Nat)
    (hc : c < n) : (shapingLoop n g buffer)[c]? = (buffer[c]?).map (List.map (shapeSample g)) := by
  unfold shapingLoop
  rw [mapChannels_getElem?]
  cases h : buffer[c]? with
  | none => simp
  | some channelData => simp [hc]

/-- Clearing the surplus channels does not touch an input channel. -/
theorem getElem?_clearSurplusChannels_of_lt (n k : Nat) (buffer : AudioBuffer) (c : Nat)
    (hc : c < n) : (clearSurplusChannels n k buffer)[c]? = buffer[c]? := by
  unfold clearSurplusChannels
  rw [mapChannels_getElem?]
  cases h : buffer[c]? with
  | none => simp
  | some channelData =>
    have : ¬ (n ≤ c ∧ c < k) := fun h => absurd hc (Nat.not_lt.mpr h.1)
    simp [this]

/-! ## Shaper lemmas -/

theorem signum_of_pos {x : ℚ} (h : 0 < x) : signum x = 1 := by
  simp [signum, h]

theorem signum_of_neg {x : ℚ} (h : x < 0) : signum x = -1 := by
  simp [signum, h, not_lt.mpr h.le]

theorem signum_zero : signum 0 = 0 := by
  simp [signum]

/-- The shaper on a positive gain-scaled input. -/
theorem shapeSample_of_pos (g x : ℚ) (h : 0 < x * g) :
    shapeSample g x =
      if x * g > 11184811 / 16777216 then 99 / 100
      else if x * g > 1 / 3 then (3 - (2 - 3 * (x * g)) ^ 2) / 3
      else 2 * (x * g) := by
  simp only [shapeSample, thresh1, thresh2, hardLimit, softKnee, linearRegion,
    signum_of_pos h, abs_of_pos h]
  split_ifs <;> push_cast <;> ring

/-- The shaper on a negative gain-scaled input. -/
theorem shapeSample_of_neg (g x : ℚ) (h : x * g < 0) :
    shapeSample g x =
      if -(x * g) > 11184811 / 16777216 then -(99 / 100)
      else if -(x * g) > 1 / 3 then -((3 - (2 + 3 * (x * g)) ^ 2) / 3)
      else 2 * (x * g) := by
  simp only [shapeSample, thresh1, thresh2, hardLimit, softKnee, linearRegion,
    signum_of_neg h, abs_of_neg h]
  split_ifs <;> push_cast <;> ring

/-- The shaper on a zero gain-scaled input. -/
theorem shapeSample_of_zero (g x : ℚ) (h : x * g = 0) : shapeSample g x = 0 := by
  simp only [shapeSample, thresh1, thresh2, linearRegion, h, abs_zero]
  norm_num

/-- Every output of the shaper has magnitude at most 1. -/
theorem abs_shapeSample_le_one (g x : ℚ) : |shapeSample g x| ≤ 1 := by
  rcases lt_trichotomy (x * g) 0 with h | h | h
  · rw [shapeSample_of_neg g x h, abs_le]
    split_ifs with h1 h2
    · constructor <;> norm_num
    · constructor <;> nlinarith [sq_nonneg (2 + 3 * (x * g))]
    · constructor <;> linarith
  · rw [shapeSample_of_zero g x h]
    norm_num
  · rw [shapeSample_of_pos g x h, abs_le]
    split_ifs with h1 h2
    · constructor <;> norm_num
    · constructor <;> nlinarith [sq_nonneg (2 - 3 * (x * g))]
    · constructor <;> linarith

/-- Up to `|x*g| = 3/5`, and from the first binary32 value above `thresh2` on,
the output stays within `0.99`. -/
theorem abs_shapeSample_le_ceiling (g x : ℚ)
    (h : |x * g| ≤ 3 / 5 ∨ 11184812 / 16777216 ≤ |x * g|) :
    |shapeSample g x| ≤ 99 / 100 := by
  rcases lt_trichotomy (x * g) 0 with h0 | h0 | h0
  · rw [abs_of_neg h0] at h
    rw [shapeSample_of_neg g x h0, abs_le]
    split_ifs with h1 h2
    · constructor <;> norm_num
    · rcases h with h | h
      · constructor <;> nlinarith [sq_nonneg (2 + 3 * (x * g))]
      · exact absurd (lt_of_lt_of_le (by norm_num) h) h1
    · constructor <;> linarith
  · rw [shapeSample_of_zero g x h0]
    norm_num
  · rw [abs_of_pos h0] at h
    rw [shapeSample_of_pos g x h0, abs_le]
    split_ifs with h1 h2
    · constructor <;> norm_num
    · rcases h with h | h
      · constructor <;> nlinarith [sq_nonneg (2 - 3 * (x * g))]
      · exact absurd (lt_of_lt_of_le (by norm_num) h) h1
    · constructor <;> linarith

/-! ## Binary32 lemmas -/

theorem roundHalfEven_intCast (z : Int) : roundHalfEven (z : ℚ) = z := by
  simp [roundHalfEven]

theorem roundHalfEven_of_lt_half (q : ℚ) (z : Int) (h1 : (z : ℚ) ≤ q) (h2 : q < z + 1 / 2) :
    roundHalfEven q = z := by
  have hf : ⌊q⌋ = z := Int.floor_eq_iff.mpr ⟨h1, by linarith⟩
  simp only [roundHalfEven, hf]
  rw [if_pos (by linarith)]

theorem roundHalfEven_of_gt_half (q : ℚ) (z : Int) (h1 : (z : ℚ) + 1 / 2 < q) (h2 : q < z + 1) :
    roundHalfEven q = z + 1 := by
  have hf : ⌊q⌋ = z := Int.floor_eq_iff.mpr ⟨by linarith, h2⟩
  simp only [roundHalfEven, hf]
  rw [if_neg (by linarith), if_pos (by linarith)]

theorem round32_zero : round32 0 = 0 := by
  simp [round32]

/-- The binary exponent of a rational between two consecutive powers of two. -/
theorem int_log_two_eq (q : ℚ) (e : Int) (hl : (2 : ℚ) ^ e ≤ |q|)
    (hu : |q| < (2 : ℚ) ^ (e + 1)) : Int.log 2 |q| = e := by
  have hpos : (0 : ℚ) < |q| := lt_of_lt_of_le (zpow_pos (by norm_num) e) hl
  have h1 : e ≤ Int.log 2 |q| :=
    (Int.zpow_le_iff_le_log (by norm_num) hpos).mp (by exact_mod_cast hl)
  have h2 : Int.log 2 |q| < e + 1 :=
    (Int.lt_zpow_iff_log_lt (by norm_num) hpos).mp (by exact_mod_cast hu)
  omega

/-- Rounding inside the binade `[2^e, 2^(e+1))`: the quantum is `2^(e-23)`. -/
theorem round32_of_binade (q : ℚ) (e : Int) (hl : (2 : ℚ) ^ e ≤ |q|)
    (hu : |q| < (2 : ℚ) ^ (e + 1)) :
    round32 q = (roundHalfEven (q / 2 ^ (e - 23)) : ℚ) * 2 ^ (e - 23) := by
  have hpos : (0 : ℚ) < |q| := lt_of_lt_of_le (zpow_pos (by norm_num) e) hl
  have hq : q ≠ 0 := abs_pos.mp hpos
  simp only [round32, if_neg hq, int_log_two_eq q e hl hu]

/-- Rounding to an integer never crosses an integer bound from below. -/
theorem roundHalfEven_le_of_le (q : ℚ) (N : Int) (h : q ≤ N) : roundHalfEven q ≤ N := by
  have hfl : ⌊q⌋ ≤ N := Int.floor_le_iff.mpr (by linarith)
  have hfq : (⌊q⌋ : ℚ) ≤ q := Int.floor_le q
  simp only [roundHalfEven]
  split_ifs with h1 h2 h3
  · exact hfl
  · have hlt : (⌊q⌋ : ℚ) < N := by linarith
    have : ⌊q⌋ < N := by exact_mod_cast hlt
    omega
  · exact hfl
  · have hlt : (⌊q⌋ : ℚ) < N := by linarith
    have : ⌊q⌋ < N := by exact_mod_cast hlt
    omega

/-- Rounding to an integer never crosses an integer bound from above. -/
theorem le_roundHalfEven_of_le (q : ℚ) (N : Int) (h : (N : ℚ) ≤ q) : N ≤ roundHalfEven q := by
  have hfl : N ≤ ⌊q⌋ := Int.le_floor.mpr h
  simp only [roundHalfEven]
  split_ifs <;> omega

theorem round32_eq_of_ne_zero (q : ℚ) (hq : q ≠ 0) :
    round32 q
      = (roundHalfEven (q / 2 ^ (Int.log 2 |q| - 23)) : ℚ) * 2 ^ (Int.log 2 |q| - 23) := by
  simp only [round32, if_neg hq]

/-- Rounding to binary32 does not cross a multiple of the quantum from below. -/
theorem round32_le_of_le (q : ℚ) (N : Int) (hq : q ≠ 0)
    (h : q ≤ N * 2 ^ (Int.log 2 |q| - 23)) : round32 q ≤ N * 2 ^ (Int.log 2 |q| - 23) := by
  have hQ : (0 : ℚ) < 2 ^ (Int.log 2 |q| - 23) := zpow_pos (by norm_num) _
  rw [round32_eq_of_ne_zero q hq]
  have hr : roundHalfEven (q / 2 ^ (Int.log 2 |q| - 23)) ≤ N :=
    roundHalfEven_le_of_le _ N ((div_le_iff₀ hQ).mpr h)
  exact mul_le_mul_of_nonneg_right (by exact_mod_cast hr) hQ.le

/-- Rounding to binary32 does not cross a multiple of the quantum from above. -/
theorem le_round32_of_le (q : ℚ) (N : Int) (hq : q ≠ 0)
    (h : (N : ℚ) * 2 ^ (Int.log 2 |q| - 23) ≤ q) : (N : ℚ) * 2 ^ (Int.log 2 |q| - 23) ≤ round32 q := by
  have hQ : (0 : ℚ) < 2 ^ (Int.log 2 |q| - 23) := zpow_pos (by norm_num) _
  rw [round32_eq_of_ne_zero q hq]
  have hr : N ≤ roundHalfEven (q / 2 ^ (Int.log 2 |q| - 23)) :=
    le_roundHalfEven_of_le _ N ((le_div_iff₀ hQ).mpr h)
  exact mul_le_mul_of_nonneg_right (by exact_mod_cast hr) hQ.le

theorem round32_nonneg (q : ℚ) (h : 0 ≤ q) : 0 ≤ round32 q := by
  by_cases hq : q = 0
  · rw [hq, round32_zero]
  · have := le_round32_of_le q 0 hq (by simpa using h)
    simpa using this

theorem round32_nonpos (q : ℚ) (h : q ≤ 0) : round32 q ≤ 0 := by
  by_cases hq : q = 0
  · rw [hq, round32_zero]
  · have := round32_le_of_le q 0 hq (by simpa using h)
    simpa using this

/-- Rounding to binary32 keeps a magnitude within a power of two. -/
theorem abs_round32_le_two_zpow (q : ℚ) (k : Int) (h : |q| ≤ 2 ^ k) : |round32 q| ≤ 2 ^ k := by
  by_cases hq : q = 0
  · rw [hq, round32_zero, abs_zero]
    exact (zpow_pos (by norm_num) k).le
  · have hpos : (0 : ℚ) < |q| := abs_pos.mpr hq
    have he : Int.log 2 |q| ≤ k := by
      have := Int.log_mono_right (b := 2) hpos h
      rwa [show ((2 : ℚ) ^ k) = (((2 : ℕ) : ℚ) ^ k) by norm_num,
        Int.log_zpow (by norm_num) k] at this
    obtain ⟨n, hn⟩ : ∃ n : ℕ, (n : Int) = k - Int.log 2 |q| + 23 :=
      ⟨(k - Int.log 2 |q| + 23).toNat, Int.toNat_of_nonneg (by omega)⟩
    have hN : (((2 : Int) ^ n : Int) : ℚ) * 2 ^ (Int.log 2 |q| - 23) = 2 ^ k := by
      push_cast
      rw [← zpow_natCast, hn, ← zpow_add₀ (by norm_num : (2 : ℚ) ≠ 0)]
      congr 1
      omega
    have hN' : ((-(2 : Int) ^ n : Int) : ℚ) * 2 ^ (Int.log 2 |q| - 23) = -2 ^ k := by
      rw [← hN]
      push_cast
      ring
    rw [abs_le]
    constructor
    · rw [← hN']
      apply le_round32_of_le q _ hq
      rw [hN']
      linarith [neg_abs_le q]
    · rw [← hN]
      apply round32_le_of_le q _ hq
      rw [hN]
      linarith [le_abs_self q]

theorem abs_round32_le_one (q : ℚ) (h : |q| ≤ 1) : |round32 q| ≤ 1 := by
  have := abs_round32_le_two_zpow q 0 (by simpa using h)
  simpa using this

/-- Rounding to binary32 does not cross `3` from below. -/
theorem round32_le_three (q : ℚ) (h : q ≤ 3) : round32 q ≤ 3 := by
  by_cases h2 : q < 2
  · by_cases h0 : q ≤ 0
    · linarith [round32_nonpos q h0]
    · have habs : |q| ≤ 2 ^ (1 : Int) := by
        rw [abs_of_pos (not_le.mp h0)]
        norm_num
        linarith
      have := abs_round32_le_two_zpow q 1 habs
      have h3 := (abs_le.mp this).2
      norm_num at h3
      linarith
  · have hq2 : 2 ≤ q := not_lt.mp h2
    have hq : q ≠ 0 := by linarith
    have habs : |q| = q := abs_of_pos (by linarith)
    have he : Int.log 2 |q| = 1 :=
      int_log_two_eq q 1 (by rw [habs]; norm_num; linarith) (by rw [habs]; norm_num; linarith)
    have := round32_le_of_le q 12582912 hq (by rw [he]; norm_num; linarith)
    rw [he] at this
    norm_num at this
    linarith

theorem abs_signum_le_one (x : ℚ) : |((signum x : Int) : ℚ)| ≤ 1 := by
  unfold signum
  split_ifs <;> norm_num

/-- In binary32, too, every output of the shaper has magnitude at most 1. -/
theorem abs_shapeSample32_le_one (g x : ℚ) : |shapeSample32 g x| ≤ 1 := by
  have hT2 : round32 (2 / 3) ≤ 1 :=
    (abs_le.mp (abs_round32_le_one (2 / 3) (by norm_num [abs_of_pos]))).2
  have hT1 : round32 (1 / 3) ≤ 1 / 2 := by
    have := abs_round32_le_two_zpow (1 / 3) (-1) (by norm_num [abs_of_pos])
    have h := (abs_le.mp this).2
    norm_num at h
    linarith
  have hc99 : |round32 (99 / 100)| ≤ 1 := abs_round32_le_one _ (by norm_num [abs_of_pos])
  simp only [shapeSample32]
  generalize round32 (x * g) = inp
  have hsign := abs_signum_le_one inp
  split_ifs with hA hB
  · apply abs_round32_le_one
    rw [abs_mul]
    calc |round32 (99 / 100)| * |((signum inp : Int) : ℚ)| ≤ 1 * 1 :=
          mul_le_mul hc99 hsign (abs_nonneg _) (by norm_num)
      _ = 1 := by norm_num
  · have ha0 : 0 ≤ |inp| := abs_nonneg inp
    have ha1 : |inp| ≤ 1 := le_trans (not_lt.mp hA) hT2
    generalize |inp| = a at ha0 ha1
    have ht0 : 0 ≤ round32 (3 * a) := round32_nonneg _ (by linarith)
    have ht4 : round32 (3 * a) ≤ 4 := by
      have := abs_round32_le_two_zpow (3 * a) 2 (by
        rw [abs_of_nonneg (by linarith)]
        norm_num
        linarith)
      have h := (abs_le.mp this).2
      norm_num at h
      linarith
    generalize round32 (3 * a) = t at ht0 ht4
    have hd : |round32 (2 - t)| ≤ 2 := by
      have := abs_round32_le_two_zpow (2 - t) 1 (by
        rw [abs_le]
        constructor <;> norm_num <;> linarith)
      simpa using this
    generalize round32 (2 - t) = d at hd
    have hdd0 : 0 ≤ d * d := mul_self_nonneg d
    have hdd4 : d * d ≤ 4 := by
      have := abs_le.mp hd
      nlinarith [this.1, this.2]
    have hsq0 : 0 ≤ round32 (d * d) := round32_nonneg _ hdd0
    have hsq4 : round32 (d * d) ≤ 4 := by
      have := abs_round32_le_two_zpow (d * d) 2 (by
        rw [abs_of_nonneg hdd0]
        norm_num
        linarith)
      have h := (abs_le.mp this).2
      norm_num at h
      linarith
    generalize round32 (d * d) = sq at hsq0 hsq4
    have hv3 : round32 (3 - sq) ≤ 3 := round32_le_three _ (by linarith)
    have hv1 : -1 ≤ round32 (3 - sq) := by
      by_cases hpos : 0 ≤ 3 - sq
      · linarith [round32_nonneg _ hpos]
      · have := abs_round32_le_one (3 - sq) (by
          rw [abs_le]
          constructor <;> linarith)
        exact (abs_le.mp this).1
    generalize round32 (3 - sq) = v at hv3 hv1
    have hw : |round32 (v / 3)| ≤ 1 := abs_round32_le_one _ (by
      rw [abs_le]
      constructor <;> linarith)
    generalize round32 (v / 3) = w at hw
    apply abs_round32_le_one
    rw [abs_mul]
    calc |w| * |((signum inp : Int) : ℚ)| ≤ 1 * 1 :=
          mul_le_mul hw hsign (abs_nonneg _) (by norm_num)
      _ = 1 := by norm_num
  · apply abs_round32_le_one
    have h1 : |inp| ≤ 1 / 2 := le_trans (not_lt.mp hB) hT1
    rw [abs_mul]
    norm_num
    linarith

/-- The stored value of `2.0f / 3.0f` is the constant `thresh2`. -/
theorem round32_two_thirds : round32 (2 / 3) = thresh2 := by
  rw [round32_of_binade (2 / 3) (-1) (by norm_num [abs_of_pos]) (by norm_num [abs_of_pos]),
    roundHalfEven_of_gt_half _ 11184810 (by norm_num) (by norm_num)]
  norm_num [thresh2]

/-- The stored value of `1.0f / 3.0f`. -/
theorem round32_one_third : round32 (1 / 3) = 11184811 / 33554432 := by
  rw [round32_of_binade (1 / 3) (-2) (by norm_num [abs_of_pos]) (by norm_num [abs_of_pos]),
    roundHalfEven_of_gt_half _ 11184810 (by norm_num) (by norm_num)]
  norm_num

/-- The constant `thresh2` is a binary32 value. -/
theorem round32_thresh2 : round32 (11184811 / 16777216) = 11184811 / 16777216 := by
  rw [round32_of_binade _ (-1) (by norm_num [abs_of_pos]) (by norm_num [abs_of_pos])]
  have h : (11184811 / 16777216 : ℚ) / 2 ^ ((-1 : Int) - 23) = ((11184811 : Int) : ℚ) := by
    norm_num
  rw [h, roundHalfEven_intCast]
  norm_num

theorem round32_neg_thresh2 : round32 (-(11184811 / 16777216)) = -(11184811 / 16777216) := by
  rw [round32_of_binade _ (-1) (by norm_num [abs_of_pos]) (by norm_num [abs_of_pos])]
  have h : (-(11184811 / 16777216) : ℚ) / 2 ^ ((-1 : Int) - 23) = ((-11184811 : Int) : ℚ) := by
    norm_num
  rw [h, roundHalfEven_intCast]
  norm_num

/-- Three times `thresh2` is `2 + 2^-24`, which rounds to `2`. -/
theorem round32_three_thresh2 : round32 (3 * (11184811 / 16777216)) = 2 := by
  rw [round32_of_binade _ 1 (by norm_num [abs_of_pos]) (by norm_num [abs_of_pos]),
    roundHalfEven_of_lt_half _ 8388608 (by norm_num) (by norm_num)]
  norm_num

theorem round32_one : round32 1 = 1 := by
  rw [round32_of_binade _ 0 (by norm_num) (by norm_num)]
  have h : (1 : ℚ) / 2 ^ ((0 : Int) - 23) = ((8388608 : Int) : ℚ) := by norm_num
  rw [h, roundHalfEven_intCast]
  norm_num

theorem round32_neg_one : round32 (-1) = -1 := by
  rw [round32_of_binade _ 0 (by norm_num) (by norm_num)]
  have h : (-1 : ℚ) / 2 ^ ((0 : Int) - 23) = ((-8388608 : Int) : ℚ) := by norm_num
  rw [h, roundHalfEven_intCast]
  norm_num

theorem round32_three : round32 3 = 3 := by
  rw [round32_of_binade _ 1 (by norm_num [abs_of_pos]) (by norm_num [abs_of_pos])]
  have h : (3 : ℚ) / 2 ^ ((1 : Int) - 23) = ((12582912 : Int) : ℚ) := by norm_num
  rw [h, roundHalfEven_intCast]
  norm_num

/-- In binary32 the sample `thresh2` at gain 1 is stored as exactly `1`: it is not
above `thresh2`, so the soft knee is taken, `3.0f * absIn` rounds to `2` and the
square vanishes. -/
theorem shapeSample32_thresh2 : shapeSample32 1 (11184811 / 16777216) = 1 := by
  have hs : signum (11184811 / 16777216) = 1 := signum_of_pos (by norm_num)
  have ha : |(11184811 / 16777216 : ℚ)| = 11184811 / 16777216 := abs_of_pos (by norm_num)
  simp only [shapeSample32, mul_one, round32_thresh2, round32_two_thirds, round32_one_third,
    hs, ha, thresh2]
  rw [if_neg (lt_irrefl _), if_pos (by norm_num), round32_three_thresh2]
  norm_num [round32_zero, round32_three, round32_one]

/-- In binary32 the sample `-thresh2` at gain 1 is stored as exactly `-1`. -/
theorem shapeSample32_neg_thresh2 : shapeSample32 1 (-(11184811 / 16777216)) = -1 := by
  have hs : signum (-(11184811 / 16777216)) = -1 := signum_of_neg (by norm_num)
  have ha : |(-(11184811 / 16777216) : ℚ)| = 11184811 / 16777216 := by
    rw [abs_neg]
    exact abs_of_pos (by norm_num)
  simp only [shapeSample32, mul_one, round32_neg_thresh2, round32_two_thirds, round32_one_third,
    hs, ha, thresh2]
  rw [if_neg (lt_irrefl _), if_pos (by norm_num), round32_three_thresh2]
  norm_num [round32_zero, round32_three, round32_one, round32_neg_one]

/-- In binary32 the sample `11184810 / 2^24`, the last binary32 value below `2/3`,
at gain 1 is stored as exactly `1` as well: `2.0f - 3.0f * absIn` is `2^-23`, and
its square is absorbed by `3.0f - ...`. -/
theorem shapeSample32_below_two_thirds : shapeSample32 1 (11184810 / 16777216) = 1 := by
  have hs : signum (11184810 / 16777216) = 1 := signum_of_pos (by norm_num)
  have ha : |(11184810 / 16777216 : ℚ)| = 11184810 / 16777216 := abs_of_pos (by norm_num)
  have hin : round32 (11184810 / 16777216) = 11184810 / 16777216 := by
    rw [round32_of_binade _ (-1) (by norm_num [abs_of_pos]) (by norm_num [abs_of_pos])]
    have h : (11184810 / 16777216 : ℚ) / 2 ^ ((-1 : Int) - 23) = ((11184810 : Int) : ℚ) := by
      norm_num
    rw [h, roundHalfEven_intCast]
    norm_num
  have ht : round32 (3 * (11184810 / 16777216)) = 16777215 / 8388608 := by
    rw [round32_of_binade _ 0 (by norm_num [abs_of_pos]) (by norm_num [abs_of_pos])]
    have h : (3 * (11184810 / 16777216) : ℚ) / 2 ^ ((0 : Int) - 23) = ((16777215 : Int) : ℚ) := by
      norm_num
    rw [h, roundHalfEven_intCast]
    norm_num
  have hd : round32 (2 - 16777215 / 8388608) = 1 / 8388608 := by
    rw [round32_of_binade _ (-23) (by norm_num [abs_of_pos]) (by norm_num [abs_of_pos])]
    have h : (2 - 16777215 / 8388608 : ℚ) / 2 ^ ((-23 : Int) - 23) = ((8388608 : Int) : ℚ) := by
      norm_num
    rw [h, roundHalfEven_intCast]
    norm_num
  have hsq : round32 (1 / 8388608 * (1 / 8388608)) = 1 / 70368744177664 := by
    rw [round32_of_binade _ (-46) (by norm_num [abs_of_pos]) (by norm_num [abs_of_pos])]
    have h : (1 / 8388608 * (1 / 8388608) : ℚ) / 2 ^ ((-46 : Int) - 23)
        = ((8388608 : Int) : ℚ) := by
      norm_num
    rw [h, roundHalfEven_intCast]
    norm_num
  have hv : round32 (3 - 1 / 70368744177664) = 3 := by
    rw [round32_of_binade _ 1 (by norm_num [abs_of_pos]) (by norm_num [abs_of_pos]),
      roundHalfEven_of_gt_half _ 12582911 (by norm_num) (by norm_num)]
    norm_num
  simp only [shapeSample32, mul_one, hin, round32_two_thirds, round32_one_third, hs, ha, thresh2]
  rw [if_neg (by norm_num), if_pos (by norm_num), ht, hd, hsq, hv]
  norm_num [round32_one]

/-- The stored value of the literal `0.99f`. -/
theorem round32_ceiling : round32 (99 / 100) = 4152361 / 4194304 := by
  rw [round32_of_binade (99 / 100) (-1) (by norm_num [abs_of_pos]) (by norm_num [abs_of_pos]),
    roundHalfEven_of_gt_half _ 16609443 (by norm_num) (by norm_num)]
  norm_num

theorem round32_ceiling_fixed : round32 (4152361 / 4194304) = 4152361 / 4194304 := by
  rw [round32_of_binade _ (-1) (by norm_num [abs_of_pos]) (by norm_num [abs_of_pos])]
  have h : (4152361 / 4194304 : ℚ) / 2 ^ ((-1 : Int) - 23) = ((16609444 : Int) : ℚ) := by
    norm_num
  rw [h, roundHalfEven_intCast]
  norm_num

theorem round32_neg_ceiling_fixed : round32 (-(4152361 / 4194304)) = -(4152361 / 4194304) := by
  rw [round32_of_binade _ (-1) (by norm_num [abs_of_pos]) (by norm_num [abs_of_pos])]
  have h : (-(4152361 / 4194304) : ℚ) / 2 ^ ((-1 : Int) - 23) = ((-16609444 : Int) : ℚ) := by
    norm_num
  rw [h, roundHalfEven_intCast]
  norm_num

/-- Rounding a rational of exponent at least `0` leaves it at least `1` in
magnitude, on the side it is on. -/
theorem one_le_round32_of_exponent (q : ℚ) (hq : q ≠ 0) (he : 0 ≤ Int.log 2 |q|) :
    (0 < q → 1 ≤ round32 q) ∧ (q < 0 → round32 q ≤ -1) := by
  obtain ⟨n, hn⟩ : ∃ n : ℕ, (n : Int) = Int.log 2 |q| :=
    ⟨(Int.log 2 |q|).toNat, Int.toNat_of_nonneg he⟩
  have hlog : (2 : ℚ) ^ Int.log 2 |q| ≤ |q| := by
    have := Int.zpow_log_le_self (b := 2) (r := |q|) (by norm_num) (abs_pos.mpr hq)
    exact_mod_cast this
  have h23 : (8388608 : ℚ) = 2 ^ (23 : Int) := by norm_num
  have hN : ((8388608 : Int) : ℚ) * 2 ^ (Int.log 2 |q| - 23) = 2 ^ Int.log 2 |q| := by
    push_cast
    rw [h23, ← zpow_add₀ (by norm_num : (2 : ℚ) ≠ 0)]
    congr 1
    ring
  have hN' : ((-8388608 : Int) : ℚ) * 2 ^ (Int.log 2 |q| - 23) = -2 ^ Int.log 2 |q| := by
    rw [← hN]
    push_cast
    ring
  have hone : (1 : ℚ) ≤ 2 ^ Int.log 2 |q| := by
    rw [← hn, zpow_natCast]
    exact one_le_pow₀ (by norm_num)
  constructor
  · intro hpos
    have hlog' : (2 : ℚ) ^ Int.log 2 |q| ≤ q := hlog.trans (le_of_eq (abs_of_pos hpos))
    have hround := le_round32_of_le q 8388608 hq (by rw [hN]; exact hlog')
    rw [hN] at hround
    linarith
  · intro hneg
    have hlog' : (2 : ℚ) ^ Int.log 2 |q| ≤ -q := hlog.trans (le_of_eq (abs_of_neg hneg))
    have hround := round32_le_of_le q (-8388608) hq (by rw [hN']; linarith)
    rw [hN'] at hround
    linarith

/-- A product at least `11184812 / 2^24`, the first binary32 value above `thresh2`,
is still at least that after rounding. -/
theorem le_round32_of_above_thresh2 (q : ℚ) (h : 11184812 / 16777216 ≤ q) :
    11184812 / 16777216 ≤ round32 q := by
  have hpos : 0 < q := lt_of_lt_of_le (by norm_num) h
  have hq : q ≠ 0 := ne_of_gt hpos
  have habs : |q| = q := abs_of_pos hpos
  have he : -1 ≤ Int.log 2 |q| :=
    (Int.zpow_le_iff_le_log (by norm_num) (abs_pos.mpr hq)).mp (by
      rw [habs]
      norm_num
      linarith)
  rcases eq_or_lt_of_le he with he1 | he1
  · have := le_round32_of_le q 11184812 hq (by
      rw [← he1]
      norm_num
      linarith)
    rw [← he1] at this
    norm_num at this
    linarith
  · have := (one_le_round32_of_exponent q hq (by omega)).1 hpos
    linarith

/-- A product at most `-11184812 / 2^24` is still at most that after rounding. -/
theorem round32_le_of_below_neg_thresh2 (q : ℚ) (h : q ≤ -(11184812 / 16777216)) :
    round32 q ≤ -(11184812 / 16777216) := by
  have hneg : q < 0 := lt_of_le_of_lt h (by norm_num)
  have hq : q ≠ 0 := ne_of_lt hneg
  have habs : |q| = -q := abs_of_neg hneg
  have he : -1 ≤ Int.log 2 |q| :=
    (Int.zpow_le_iff_le_log (by norm_num) (abs_pos.mpr hq)).mp (by
      rw [habs]
      norm_num
      linarith)
  rcases eq_or_lt_of_le he with he1 | he1
  · have := round32_le_of_le q (-11184812) hq (by
      rw [← he1]
      norm_num
      linarith)
    rw [← he1] at this
    norm_num at this
    linarith
  · have := (one_le_round32_of_exponent q hq (by omega)).2 hneg
    linarith

/-- In binary32, a sample whose gain-scaled value is at least `11184812 / 2^24` in
magnitude is stored as the literal `0.99f` with the sign of that value. -/
theorem shapeSample32_hard_limit (g x : ℚ) (h : 11184812 / 16777216 ≤ |x * g|) :
    shapeSample32 g x = round32 (99 / 100) * (signum (x * g) : ℚ) := by
  simp only [shapeSample32, round32_two_thirds, round32_ceiling, thresh2]
  rcases lt_trichotomy (x * g) 0 with h0 | h0 | h0
  · rw [abs_of_neg h0] at h
    have hr := round32_le_of_below_neg_thresh2 (x * g) (by linarith)
    have hrneg : round32 (x * g) < 0 := lt_of_le_of_lt hr (by norm_num)
    rw [abs_of_neg hrneg, if_pos (by linarith), signum_of_neg hrneg, signum_of_neg h0]
    have e : (4152361 / 4194304 : ℚ) * ((-1 : Int) : ℚ) = -(4152361 / 4194304) := by norm_num
    rw [e, round32_neg_ceiling_fixed]
  · rw [h0] at h
    norm_num at h
  · rw [abs_of_pos h0] at h
    have hr := le_round32_of_above_thresh2 (x * g) h
    have hrpos : 0 < round32 (x * g) := lt_of_lt_of_le (by norm_num) hr
    rw [abs_of_pos hrpos, if_pos (by linarith), signum_of_pos hrpos, signum_of_pos h0]
    have e : (4152361 / 4194304 : ℚ) * ((1 : Int) : ℚ) = 4152361 / 4194304 := by norm_num
    rw [e, round32_ceiling_fixed]

/-! ## Mixer lemmas -/

/-- With a positive sample rate and block size `prepareToPlay` completes: the
mixer holds the given configuration and the linear rule. -/
theorem prepareToPlay_of_valid (p : OverdriveAAPAudioProcessor) (sampleRate : ℚ)
    (samplesPerBlock : Int) (hs : 0 < sampleRate) (hb : 0 < samplesPerBlock) :
    prepareToPlay p sampleRate samplesPerBlock
      = Except.ok
          { p with
            dryWetMixer :=
              { p.dryWetMixer with
                spec :=
                  { sampleRate := sampleRate, maximumBlockSize := samplesPerBlock,
                    numChannels := p.totalNumOutputChannels }
                drySamples := []
                mixingRule := DryWetMixingRule.linear } } := by
  simp only [prepareToPlay, DryWetMixer.prepare, if_neg (not_le.mpr hs), if_neg (not_le.mpr hb)]
  rfl

/-- A processor returned by `prepareToPlay` has the parameters and channel
counts of the processor it was called on. -/
theorem prepareToPlay_ok_fields (p q : OverdriveAAPAudioProcessor) (sampleRate : ℚ)
    (samplesPerBlock : Int) (h : prepareToPlay p sampleRate samplesPerBlock = Except.ok q) :
    q.totalNumInputChannels = p.totalNumInputChannels ∧ q.dryWetMix = p.dryWetMix
      ∧ q.inputGain = p.inputGain ∧ q.totalNumOutputChannels = p.totalNumOutputChannels := by
  simp only [prepareToPlay, DryWetMixer.prepare] at h
  split_ifs at h
  simp only [Except.ok.injEq] at h
  subst h
  exact ⟨rfl, rfl, rfl, rfl⟩

/-- Inside `[0, 1]` the clamp of `setWetMixProportion` is the identity. -/
theorem clamp_of_mem (m : ℚ) (h0 : 0 ≤ m) (h1 : m ≤ 1) : max 0 (min 1 m) = m := by
  rw [min_eq_right h1, max_eq_right h0]

/-- The blend under the linear rule. -/
theorem blend_linear (mixer : DryWetMixer) (dry wet : ℚ) :
    mixer.blend dry wet = dry * (1 - mixer.mix) + wet * mixer.mix := by
  cases hrule : mixer.mixingRule
  simp [DryWetMixer.blend, DryWetMixingRule.gains, hrule]

/-- Channel `c` of the mixer output when both the snapshot and the wet buffer
have that channel. -/
theorem getElem?_mixWetSamples (mixer : DryWetMixer) (wetSamples : AudioBuffer) (c : Nat)
    (dryChannel wetChannel : List ℚ) (hd : mixer.drySamples[c]? = some dryChannel)
    (hw : wetSamples[c]? = some wetChannel) :
    (mixer.mixWetSamples wetSamples)[c]? = some (List.zipWith mixer.blend dryChannel wetChannel) := by
  simp [DryWetMixer.mixWetSamples, List.getElem?_zipWith, hd, hw]

/-- Channel `c` of the mixer output when the snapshot has no such channel. -/
theorem getElem?_mixWetSamples_none (mixer : DryWetMixer) (wetSamples : AudioBuffer) (c : Nat)
    (hd : mixer.drySamples[c]? = none) : (mixer.mixWetSamples wetSamples)[c]? = none := by
  simp [DryWetMixer.mixWetSamples, List.getElem?_zipWith, hd]

/-- Blending a channel with its own image under `f`, sample by sample. -/
theorem zipWith_blend_map (mixer : DryWetMixer) (f : ℚ → ℚ) (channelData : List ℚ) :
    List.zipWith mixer.blend channelData (channelData.map f)
      = channelData.map (fun x => mixer.blend x (f x)) := by
  rw [List.zipWith_map_right, List.zipWith_same]

/-- Channel `c` of the buffer after `processBlock`, for an input channel: every
sample is the blend of the old sample with its shaped value, at the clamped mix. -/
theorem getElem?_processBlock_of_lt (p : OverdriveAAPAudioProcessor) (buffer : AudioBuffer)
    (c : Nat) (hc : c < p.totalNumInputChannels) :
    (processBlock p buffer).2[c]?
      = (buffer[c]?).map (List.map (fun x =>
          x * (1 - max 0 (min 1 p.dryWetMix))
            + shapeSample p.inputGain x * max 0 (min 1 p.dryWetMix))) := by
  have h1 := getElem?_clearSurplusChannels_of_lt p.totalNumInputChannels
    p.totalNumOutputChannels buffer c hc
  have h2 := getElem?_shapingLoop_of_lt p.totalNumInputChannels p.inputGain
    (clearSurplusChannels p.totalNumInputChannels p.totalNumOutputChannels buffer) c hc
  rw [h1] at h2
  simp only [processBlock]
  cases hb : buffer[c]? with
  | none =>
    rw [hb] at h1
    rw [getElem?_mixWetSamples_none _ _ c (by simpa [DryWetMixer.setWetMixProportion,
      DryWetMixer.pushDrySamples] using h1)]
    rfl
  | some channelData =>
    rw [hb] at h1 h2
    rw [getElem?_mixWetSamples _ _ c channelData (channelData.map (shapeSample p.inputGain))
      (by simpa [DryWetMixer.setWetMixProportion, DryWetMixer.pushDrySamples] using h1)
      (by simpa using h2)]
    rw [zipWith_blend_map]
    simp [blend_linear, DryWetMixer.setWetMixProportion, DryWetMixer.pushDrySamples]

theorem map_eq_self_of_zero (f : ℚ → ℚ) (hf : f 0 = 0) (channelData : List ℚ)
    (h : ∀ s ∈ channelData, s = 0) : channelData.map f = channelData := by
  induction channelData with
  | nil => rfl
  | cons s rest ih =>
    have hs : s = 0 := h s (List.mem_cons_self s rest)
    rw [List.map_cons, ih (fun t ht => h t (List.mem_cons_of_mem s ht)), hs, hf]

theorem mapChannels_eq_self (f : Nat → List ℚ → List ℚ) (k : Nat) (buffer : AudioBuffer)
    (h : ∀ j, ∀ channelData ∈ buffer, f j channelData = channelData) :
    mapChannels f k buffer = buffer := by
  induction buffer generalizing k with
  | nil => rfl
  | cons channelData rest ih =>
    simp only [mapChannels]
    rw [h k channelData (List.mem_cons_self channelData rest),
      ih (k + 1) (fun j ch hch => h j ch (List.mem_cons_of_mem channelData hch))]

theorem clearSurplusChannels_of_allZero (n k : Nat) (buffer : AudioBuffer)
    (h : buffer.allZero) : clearSurplusChannels n k buffer = buffer := by
  apply mapChannels_eq_self
  intro j channelData hmem
  split_ifs
  · exact map_eq_self_of_zero (fun _ => 0) rfl channelData (h channelData hmem)
  · rfl

theorem shapingLoop_of_allZero (n : Nat) (g : ℚ) (buffer : AudioBuffer)
    (h : buffer.allZero) : shapingLoop n g buffer = buffer := by
  apply mapChannels_eq_self
  intro j channelData hmem
  split_ifs
  · exact map_eq_self_of_zero (shapeSample g) (shapeSample_of_zero g 0 (zero_mul g))
      channelData (h channelData hmem)
  · rfl

theorem mixWetSamples_of_allZero (mixer : DryWetMixer) (buffer : AudioBuffer)
    (hd : mixer.drySamples = buffer) (h : buffer.allZero) :
    mixer.mixWetSamples buffer = buffer := by
  unfold DryWetMixer.mixWetSamples
  rw [hd, List.zipWith_same]
  have hch : ∀ channelData ∈ buffer,
      List.zipWith mixer.blend channelData channelData = channelData := by
    intro channelData hmem
    rw [List.zipWith_same]
    exact map_eq_self_of_zero (fun s => mixer.blend s s) (by simp [blend_linear]) channelData
      (h channelData hmem)
  calc List.map (fun a => List.zipWith mixer.blend a a) buffer
      = List.map id buffer := List.map_congr_left (fun a ha => hch a ha)
    _ = buffer := List.map_id buffer

/-! ## The three regions of the shaper -/

/-- C1: soft-knee region. For every buffer, gain `g` and position `(c, i)` of an
input channel holding the sample `x`, if `1/3 < |x*g| ≤ 2/3` then the shaping
loop writes `signum(x*g) * (3 - (2 - 3*|x*g|)^2) / 3` to that position. -/
theorem shapingLoop_soft_knee (n : Nat) (g : ℚ) (buffer : AudioBuffer) (c i : Nat) (x : ℚ)
    (hc : c < n) (hx : buffer.getSample c i = some x)
    (h1 : 1 / 3 < |x * g|) (h2 : |x * g| ≤ 2 / 3) :
    (shapingLoop n g buffer).getSample c i
      = some ((signum (x * g) : ℚ) * (3 - (2 - 3 * |x * g|) ^ 2) / 3) := by
  rw [getSample_shapingLoop n g buffer c i hc, hx]
  simp only [Option.map_some', shapeSample, thresh1, thresh2, softKnee]
  rw [if_neg (not_lt.mpr (h2.trans (by norm_num))), if_pos h1]
  congr 1
  ring

/-- Witness of C1: `x = 0.5`, `g = 1` gives `11/12`. -/
theorem shapingLoop_soft_knee_witness :
    (shapingLoop 1 1 [[1 / 2]]).getSample 0 0 = some (11 / 12) := by
  have h := shapingLoop_soft_knee 1 1 [[1 / 2]] 0 0 (1 / 2) (by decide) rfl
    (by norm_num [abs_of_pos]) (by norm_num [abs_of_pos])
  rw [h]
  norm_num [signum, abs_of_pos]

/-- C2, as stated, fails: the sample `thresh2 = 11184811 / 2^24` at gain 1 has
`|x*g| > 2/3`, but it is not above `thresh2`, so the loop takes the soft knee: the
value is `1 - 1/(3 * 2^48)` in exact arithmetic and exactly `1` in binary32, not
`0.99 * signum(x*g)`. -/
theorem shapingLoop_hard_limit_fails_at_thresh2 :
    (2 / 3 : ℚ) < |(11184811 / 16777216 : ℚ) * 1|
      ∧ (shapingLoop 1 1 [[11184811 / 16777216]]).getSample 0 0
          = some (1 - 1 / 844424930131968)
      ∧ (1 - 1 / 844424930131968 : ℚ)
          ≠ 99 / 100 * (signum ((11184811 / 16777216 : ℚ) * 1) : ℚ)
      ∧ shapeSample32 1 (11184811 / 16777216) = 1
      ∧ (1 : ℚ) ≠ round32 (99 / 100) := by
  have hpos : (0 : ℚ) < 11184811 / 16777216 * 1 := by norm_num
  refine ⟨by norm_num [abs_of_pos], ?_, ?_, shapeSample32_thresh2, ?_⟩
  · rw [getSample_shapingLoop 1 1 [[11184811 / 16777216]] 0 0 (by decide)]
    simp only [AudioBuffer.getSample, List.getElem?_cons_zero, Option.some_bind,
      Option.map_some']
    rw [shapeSample_of_pos 1 (11184811 / 16777216) hpos]
    norm_num
  · rw [signum_of_pos hpos]
    norm_num
  · rw [round32_ceiling]
    norm_num

/-- C2, amended: hard-limit region. For every buffer, gain `g` and position
`(c, i)` of an input channel holding the sample `x`, if `|x*g|` is at least
`11184812 / 2^24`, the first binary32 value above `thresh2 = 11184811 / 2^24`, then
the shaping loop writes exactly `0.99 * signum(x*g)` there, that is `0.99` for a
positive and `-0.99` for a negative `x*g`; evaluated in binary32 the stored value
is the literal `0.99f` with that sign. -/
theorem shapingLoop_hard_limit (n : Nat) (g : ℚ) (buffer : AudioBuffer) (c i : Nat) (x : ℚ)
    (hc : c < n) (hx : buffer.getSample c i = some x)
    (h : 11184812 / 16777216 ≤ |x * g|) :
    (shapingLoop n g buffer).getSample c i = some ((99 / 100) * (signum (x * g) : ℚ))
      ∧ (shapingLoop n g buffer).getSample c i
          = some (if 0 < x * g then 99 / 100 else -(99 / 100))
      ∧ shapeSample32 g x = round32 (99 / 100) * (signum (x * g) : ℚ) := by
  have habove : thresh2 < |x * g| := lt_of_lt_of_le (by norm_num [thresh2]) h
  refine ⟨?_, ?_, shapeSample32_hard_limit g x h⟩ <;>
    rw [getSample_shapingLoop n g buffer c i hc, hx] <;>
    simp only [Option.map_some', shapeSample, hardLimit] <;>
    rw [if_pos habove]
  rcases lt_trichotomy (x * g) 0 with h0 | h0 | h0
  · rw [signum_of_neg h0, if_neg (not_lt.mpr h0.le)]
    norm_num
  · rw [h0] at h
    norm_num at h
  · rw [signum_of_pos h0, if_pos h0]
    norm_num

/-- Witness of the amended C2: `x = 1`, `g = 1` is stored as `0.99`. -/
theorem shapingLoop_hard_limit_witness :
    (shapingLoop 1 1 [[1]]).getSample 0 0 = some (99 / 100) := by
  have h := (shapingLoop_hard_limit 1 1 [[1]] 0 0 1 (by decide) rfl (by norm_num)).2.1
  rw [h]
  norm_num

/-- C3: linear region. For every buffer, gain `g` and position `(c, i)` of an
input channel holding the sample `x`, if `|x*g| ≤ 1/3` then the shaping loop
writes `2 * (x*g)` there: the signed gain-scaled value doubled, with no further
multiplication by the sign. -/
theorem shapingLoop_linear (n : Nat) (g : ℚ) (buffer : AudioBuffer) (c i : Nat) (x : ℚ)
    (hc : c < n) (hx : buffer.getSample c i = some x) (h : |x * g| ≤ 1 / 3) :
    (shapingLoop n g buffer).getSample c i = some (2 * (x * g)) := by
  rw [getSample_shapingLoop n g buffer c i hc, hx]
  simp only [Option.map_some', shapeSample, thresh1, thresh2, linearRegion]
  rw [if_neg (not_lt.mpr (h.trans (by norm_num))), if_neg (not_lt.mpr h)]

/-- Witness of C3: `x = 0.1`, `g = 2` gives `in = 0.2` and `out = 0.4`. -/
theorem shapingLoop_linear_witness :
    (shapingLoop 1 2 [[1 / 10]]).getSample 0 0 = some (2 / 5) := by
  have h := shapingLoop_linear 1 2 [[1 / 10]] 0 0 (1 / 10) (by decide) rfl
    (by norm_num [abs_of_pos])
  rw [h]
  norm_num

/-- C4, as stated, fails: with gain 1 (inside `[0, 10]`) the sample `5/8`
(inside `[-1, 1]`) lies in the soft-knee region and the shaping loop stores
`191/192`, which is above `0.99`. -/
theorem shapingLoop_exceeds_ceiling :
    (0 : ℚ) ≤ 1 ∧ (1 : ℚ) ≤ 10 ∧ (-1 : ℚ) ≤ 5 / 8 ∧ (5 / 8 : ℚ) ≤ 1
      ∧ (shapingLoop 1 1 [[5 / 8]]).getSample 0 0 = some (191 / 192)
      ∧ ¬ (|(191 / 192 : ℚ)| ≤ 99 / 100) := by
  refine ⟨by norm_num, by norm_num, by norm_num, by norm_num, ?_, by norm_num [abs_of_pos]⟩
  rw [getSample_shapingLoop 1 1 [[5 / 8]] 0 0 (by decide)]
  have h : (0 : ℚ) < 5 / 8 * 1 := by norm_num
  simp only [AudioBuffer.getSample, List.getElem?_cons_zero, Option.some_bind, Option.map_some']
  rw [shapeSample_of_pos 1 (5 / 8) h]
  norm_num

/-- C4, amended: for every gain in `[0, 10]` and every sample `x` in `[-1, 1]` at
a position of an input channel, the shaping loop stores a value of magnitude at
most `1`, also when evaluated in binary32, and of magnitude at most `0.99` when
`|x*g| ≤ 3/5` or when `|x*g|` is at least `11184812 / 2^24`, the first binary32
value above `thresh2`. -/
theorem shapingLoop_bounded (n : Nat) (g : ℚ) (buffer : AudioBuffer) (c i : Nat) (x : ℚ)
    (hc : c < n) (hx : buffer.getSample c i = some x)
    (_hg0 : 0 ≤ g) (_hg1 : g ≤ 10) (_hx0 : -1 ≤ x) (_hx1 : x ≤ 1) :
    ∃ out, (shapingLoop n g buffer).getSample c i = some out ∧ |out| ≤ 1
      ∧ ((|x * g| ≤ 3 / 5 ∨ 11184812 / 16777216 ≤ |x * g|) → |out| ≤ 99 / 100)
      ∧ |shapeSample32 g x| ≤ 1 := by
  refine ⟨shapeSample g x, ?_, abs_shapeSample_le_one g x, abs_shapeSample_le_ceiling g x,
    abs_shapeSample32_le_one g x⟩
  rw [getSample_shapingLoop n g buffer c i hc, hx]
  rfl

/-- Witness of the amended C4 at the ends of both ranges, gain 10 and the sample
`1`: the stored value is within `1` and, being hard-limited, within `0.99`. -/
theorem shapingLoop_bounded_witness :
    ∃ out, (shapingLoop 1 10 [[1]]).getSample 0 0 = some out ∧ |out| ≤ 1
      ∧ |out| ≤ 99 / 100 := by
  obtain ⟨out, hout, hone, hceiling, _⟩ := shapingLoop_bounded 1 10 [[1]] 0 0 1 (by decide) rfl
    (by norm_num) (by norm_num) (by norm_num) (by norm_num)
  exact ⟨out, hout, hone, hceiling (Or.inr (by norm_num))⟩

/-! ## The breakpoints -/

/-- C5, as stated, fails: at `absIn = 2/3` the soft-knee formula and the
hard-limit value, taken with the same sign, are further apart than `1e-5`. -/
theorem upper_breakpoint_gap_exceeds_tolerance :
    ¬ (|softKnee (2 / 3) 1 - hardLimit 1| ≤ 1 / 100000) := by
  norm_num [softKnee, hardLimit, abs_of_pos]

/-- C5, amended: at `absIn = 2/3` the soft-knee formula gives `1` and the
hard-limit value is `0.99` (with the same sign on both), so the two differ by
exactly `0.01`; the code evaluates the breakpoint itself with the soft-knee
formula. -/
theorem upper_breakpoint_jump :
    softKnee (2 / 3) 1 = 1 ∧ hardLimit 1 = 99 / 100
      ∧ softKnee (2 / 3) (-1) = -1 ∧ hardLimit (-1) = -(99 / 100)
      ∧ |softKnee (2 / 3) 1 - hardLimit 1| = 1 / 100
      ∧ |softKnee (2 / 3) (-1) - hardLimit (-1)| = 1 / 100
      ∧ shapeSample 1 (2 / 3) = softKnee (2 / 3) 1
      ∧ shapeSample 1 (-(2 / 3)) = softKnee (2 / 3) (-1) := by
  have hp : (0 : ℚ) < 2 / 3 * 1 := by norm_num
  have hn : (-(2 / 3) : ℚ) * 1 < 0 := by norm_num
  refine ⟨?_, ?_, ?_, ?_, ?_, ?_, ?_, ?_⟩
  · norm_num [softKnee]
  · norm_num [hardLimit]
  · norm_num [softKnee]
  · norm_num [hardLimit]
  · norm_num [softKnee, hardLimit, abs_of_pos]
  · norm_num [softKnee, hardLimit, abs_of_neg]
  · rw [shapeSample_of_pos 1 (2 / 3) hp]
    norm_num [softKnee]
  · rw [shapeSample_of_neg 1 (-(2 / 3)) hn]
    norm_num [softKnee]

/-- C6: continuity at the lower breakpoint. At `absIn = 1/3` the soft-knee
formula and the linear formula both give `2/3` for a positive input and `-2/3`
for a negative one, so they agree within `1e-5`; the code evaluates the
breakpoint itself with the linear formula, and for every `absIn` the two
formulas differ by `3 * (absIn - 1/3)^2`. -/
theorem lower_breakpoint_continuous :
    softKnee |(1 / 3 : ℚ)| (signum (1 / 3)) = 2 / 3 ∧ linearRegion (1 / 3) = 2 / 3
      ∧ softKnee |(-(1 / 3) : ℚ)| (signum (-(1 / 3))) = -(2 / 3)
      ∧ linearRegion (-(1 / 3)) = -(2 / 3)
      ∧ |softKnee |(1 / 3 : ℚ)| (signum (1 / 3)) - linearRegion (1 / 3)| ≤ 1 / 100000
      ∧ |softKnee |(-(1 / 3) : ℚ)| (signum (-(1 / 3))) - linearRegion (-(1 / 3))| ≤ 1 / 100000
      ∧ shapeSample 1 (1 / 3) = linearRegion (1 / 3)
      ∧ shapeSample 1 (-(1 / 3)) = linearRegion (-(1 / 3))
      ∧ ∀ absIn : ℚ, linearRegion absIn - softKnee absIn 1 = 3 * (absIn - 1 / 3) ^ 2 := by
  have hp : signum (1 / 3) = 1 := signum_of_pos (by norm_num)
  have hn : signum (-(1 / 3)) = -1 := signum_of_neg (by norm_num)
  have ha : |(-(1 / 3) : ℚ)| = 1 / 3 := by norm_num [abs_of_pos]
  have hb : |(1 / 3 : ℚ)| = 1 / 3 := by norm_num [abs_of_pos]
  have hp0 : (0 : ℚ) < 1 / 3 * 1 := by norm_num
  have hn0 : (-(1 / 3) : ℚ) * 1 < 0 := by norm_num
  rw [hp, hn, ha, hb]
  refine ⟨?_, ?_, ?_, ?_, ?_, ?_, ?_, ?_, ?_⟩
  · norm_num [softKnee]
  · norm_num [linearRegion]
  · norm_num [softKnee]
  · norm_num [linearRegion]
  · norm_num [softKnee, linearRegion]
  · norm_num [softKnee, linearRegion]
  · rw [shapeSample_of_pos 1 (1 / 3) hp0]
    norm_num [linearRegion]
  · rw [shapeSample_of_neg 1 (-(1 / 3)) hn0]
    norm_num [linearRegion]
  · intro absIn
    simp only [softKnee, linearRegion]
    push_cast
    ring

/-! ## The sign function -/

/-- C7: `signum` is the three-valued sign function. For every `x` exactly one
of three cases holds: `x > 0` and `signum x = 1`, `x < 0` and `signum x = -1`,
or `x = 0` and `signum x = 0`; no other value is returned. -/
theorem signum_three_valued (x : ℚ) :
    (0 < x ∧ signum x = 1) ∨ (x < 0 ∧ signum x = -1) ∨ (x = 0 ∧ signum x = 0) := by
  rcases lt_trichotomy x 0 with h | h | h
  · exact Or.inr (Or.inl ⟨h, signum_of_neg h⟩)
  · exact Or.inr (Or.inr ⟨h, by rw [h]; exact signum_zero⟩)
  · exact Or.inl ⟨h, signum_of_pos h⟩

/-! ## The block pipeline -/

/-- C8: mix linearity of the block pipeline. For every processor state with mix
`m` in `[0, 1]` and gain `g`, every buffer and every position `(c, i)` of an input
channel holding the sample `dry`, the buffer after `processBlock` holds
`(1 - m) * dry + m * wet` there, where `wet` is the shaper output for `dry` at
gain `g`; the same holds for every processor state that `prepareToPlay`
returns. -/
theorem processBlock_mix_linear (p : OverdriveAAPAudioProcessor) (sampleRate : ℚ)
    (samplesPerBlock : Int) (buffer : AudioBuffer) (c i : Nat) (dry : ℚ)
    (hc : c < p.totalNumInputChannels) (hdry : buffer.getSample c i = some dry)
    (h0 : 0 ≤ p.dryWetMix) (h1 : p.dryWetMix ≤ 1) :
    (processBlock p buffer).2.getSample c i
        = some ((1 - p.dryWetMix) * dry + p.dryWetMix * shapeSample p.inputGain dry)
      ∧ ∀ q, prepareToPlay p sampleRate samplesPerBlock = Except.ok q →
          (processBlock q buffer).2.getSample c i
            = some ((1 - p.dryWetMix) * dry + p.dryWetMix * shapeSample p.inputGain dry) := by
  have key : ∀ q : OverdriveAAPAudioProcessor, q.totalNumInputChannels = p.totalNumInputChannels →
      q.dryWetMix = p.dryWetMix → q.inputGain = p.inputGain →
      (processBlock q buffer).2.getSample c i
        = some ((1 - p.dryWetMix) * dry + p.dryWetMix * shapeSample p.inputGain dry) := by
    intro q hn hm hg
    unfold AudioBuffer.getSample at hdry ⊢
    rw [getElem?_processBlock_of_lt q buffer c (by rw [hn]; exact hc), hm, hg,
      clamp_of_mem p.dryWetMix h0 h1]
    cases hb : buffer[c]? with
    | none => rw [hb] at hdry; simp at hdry
    | some channelData =>
      rw [hb] at hdry
      simp only [Option.some_bind] at hdry
      simp only [Option.map_some', Option.some_bind, List.getElem?_map, hdry]
      congr 1
      ring
  refine ⟨key p rfl rfl rfl, ?_⟩
  intro q hq
  obtain ⟨hn, hm, hg, _⟩ := prepareToPlay_ok_fields p q sampleRate samplesPerBlock hq
  exact key q hn hm hg

/-- Witness of C8: one channel holding `0.5`, gain 1, mix `0.5`: the block ends
with `0.5 * 0.5 + 0.5 * 11/12 = 17/24`. -/
theorem processBlock_mix_linear_witness :
    (processBlock
        { inputGain := 1, dryWetMix := 1 / 2, totalNumInputChannels := 1,
          totalNumOutputChannels := 1,
          dryWetMixer :=
            { spec := { sampleRate := 44100, maximumBlockSize := 1, numChannels := 1 },
              mixingRule := DryWetMixingRule.linear, mix := 1, drySamples := [] } }
        [[1 / 2]]).2.getSample 0 0 = some (17 / 24) := by
  have h := (processBlock_mix_linear
    { inputGain := 1, dryWetMix := 1 / 2, totalNumInputChannels := 1,
      totalNumOutputChannels := 1,
      dryWetMixer :=
        { spec := { sampleRate := 44100, maximumBlockSize := 1, numChannels := 1 },
          mixingRule := DryWetMixingRule.linear, mix := 1, drySamples := [] } }
    44100 1 [[1 / 2]] 0 0 (1 / 2) (by decide) rfl (by norm_num) (by norm_num)).1
  rw [h, shapeSample_of_pos 1 (1 / 2) (by norm_num)]
  norm_num

/-- C9: mix endpoints of the block pipeline. For every processor state, gain and
buffer and every input channel `c`: with the mix parameter at `0` channel `c`
after `processBlock` equals channel `c` before it (the dry channel), and with the
mix parameter at `1` it equals channel `c` of the shaped (wet) buffer. -/
theorem processBlock_mix_endpoints (p : OverdriveAAPAudioProcessor) (buffer : AudioBuffer)
    (c : Nat) (hc : c < p.totalNumInputChannels) :
    (processBlock { p with dryWetMix := 0 } buffer).2[c]? = buffer[c]?
      ∧ (processBlock { p with dryWetMix := 1 } buffer).2[c]?
          = (shapingLoop p.totalNumInputChannels p.inputGain buffer)[c]? := by
  constructor
  · rw [getElem?_processBlock_of_lt { p with dryWetMix := 0 } buffer c hc]
    cases buffer[c]? with
    | none => rfl
    | some channelData => simp
  · rw [getElem?_processBlock_of_lt { p with dryWetMix := 1 } buffer c hc,
      getElem?_shapingLoop_of_lt p.totalNumInputChannels p.inputGain buffer c hc]
    cases buffer[c]? with
    | none => rfl
    | some channelData => simp

/-- Witness of C9: one channel holding `0.5`, gain 1: the block ends with `0.5`
at mix 0 and with the shaped block at mix 1. -/
theorem processBlock_mix_endpoints_witness :
    (processBlock
        { ({ inputGain := 1, dryWetMix := 1 / 2, totalNumInputChannels := 1,
             totalNumOutputChannels := 1,
             dryWetMixer :=
               { spec := { sampleRate := 44100, maximumBlockSize := 1, numChannels := 1 },
                 mixingRule := DryWetMixingRule.linear, mix := 1, drySamples := [] } } :
            OverdriveAAPAudioProcessor) with dryWetMix := 0 }
        [[1 / 2]]).2[0]? = some [1 / 2]
      ∧ (processBlock
        { ({ inputGain := 1, dryWetMix := 1 / 2, totalNumInputChannels := 1,
             totalNumOutputChannels := 1,
             dryWetMixer :=
               { spec := { sampleRate := 44100, maximumBlockSize := 1, numChannels := 1 },
                 mixingRule := DryWetMixingRule.linear, mix := 1, drySamples := [] } } :
            OverdriveAAPAudioProcessor) with dryWetMix := 1 }
        [[1 / 2]]).2[0]? = some [11 / 12] := by
  have h := processBlock_mix_endpoints
    { inputGain := 1, dryWetMix := 1 / 2, totalNumInputChannels := 1,
      totalNumOutputChannels := 1,
      dryWetMixer :=
        { spec := { sampleRate := 44100, maximumBlockSize := 1, numChannels := 1 },
          mixingRule := DryWetMixingRule.linear, mix := 1, drySamples := [] } }
    [[1 / 2]] 0 (by decide)
  refine ⟨h.1, ?_⟩
  rw [h.2, getElem?_shapingLoop_of_lt 1 1 [[1 / 2]] 0 (by decide)]
  simp only [List.getElem?_cons_zero, Option.map_some', List.map_cons, List.map_nil]
  rw [shapeSample_of_pos 1 (1 / 2) (by norm_num)]
  norm_num

/-- C10: zero input gives zero output. For every processor state, so for every
gain in `[0, 10]` and every mix in `[0, 1]`, `processBlock` applied to a buffer
whose samples are all `0` returns that buffer unchanged: every sample of the
block is `0` afterwards. -/
theorem processBlock_zero_input (p : OverdriveAAPAudioProcessor) (buffer : AudioBuffer)
    (hzero : buffer.allZero) :
    (processBlock p buffer).2 = buffer ∧ (processBlock p buffer).2.allZero := by
  have h : (processBlock p buffer).2 = buffer := by
    simp only [processBlock]
    rw [clearSurplusChannels_of_allZero _ _ buffer hzero, shapingLoop_of_allZero _ _ buffer hzero]
    exact mixWetSamples_of_allZero _ buffer rfl hzero
  exact ⟨h, by rw [h]; exact hzero⟩

/-- Witness of C10: a stereo block of two zero samples per channel at gain 10
and mix `0.5`. -/
theorem processBlock_zero_input_witness :
    (processBlock
        { inputGain := 10, dryWetMix := 1 / 2, totalNumInputChannels := 2,
          totalNumOutputChannels := 2,
          dryWetMixer :=
            { spec := { sampleRate := 44100, maximumBlockSize := 2, numChannels := 2 },
              mixingRule := DryWetMixingRule.linear, mix := 1, drySamples := [] } }
        [[0, 0], [0, 0]]).2 = [[0, 0], [0, 0]] :=
  (processBlock_zero_input _ [[0, 0], [0, 0]] (by
    intro channelData hmem s hs
    simp only [List.mem_cons, List.mem_singleton, List.mem_nil_iff, or_false] at hmem
    rcases hmem with rfl | rfl <;> simpa using hs)).1

/-! ## Surplus channels, clamping and preparation -/

/-- Clearing overwrites a surplus channel with zeros. -/
theorem getElem?_clearSurplusChannels_of_surplus (n k : Nat) (buffer : AudioBuffer) (c : Nat)
    (h1 : n ≤ c) (h2 : c < k) :
    (clearSurplusChannels n k buffer)[c]? = (buffer[c]?).map (List.map (fun _ => 0)) := by
  unfold clearSurplusChannels
  rw [mapChannels_getElem?]
  cases h : buffer[c]? with
  | none => simp
  | some channelData => simp [h1, h2]

/-- Blending a cleared channel with itself gives the cleared channel. -/
theorem zipWith_blend_cleared (mixer : DryWetMixer) (channelData : List ℚ) :
    List.zipWith mixer.blend (channelData.map (fun _ => 0)) (channelData.map (fun _ => 0))
      = channelData.map (fun _ => 0) := by
  rw [List.zipWith_same, List.map_map]
  apply List.map_congr_left
  intro a _
  simp [blend_linear]

/-- Channel `c` of the buffer after `processBlock`, for a surplus channel. -/
theorem getElem?_processBlock_of_surplus (p : OverdriveAAPAudioProcessor) (buffer : AudioBuffer)
    (c : Nat) (h1 : p.totalNumInputChannels ≤ c) (h2 : c < p.totalNumOutputChannels) :
    (processBlock p buffer).2[c]? = (buffer[c]?).map (List.map (fun _ => 0)) := by
  have hclear := getElem?_clearSurplusChannels_of_surplus p.totalNumInputChannels
    p.totalNumOutputChannels buffer c h1 h2
  have hshape := getElem?_shapingLoop_of_le p.totalNumInputChannels p.inputGain
    (clearSurplusChannels p.totalNumInputChannels p.totalNumOutputChannels buffer) c h1
  rw [hclear] at hshape
  simp only [processBlock]
  cases hb : buffer[c]? with
  | none =>
    rw [hb] at hclear
    rw [getElem?_mixWetSamples_none _ _ c (by simpa [DryWetMixer.setWetMixProportion,
      DryWetMixer.pushDrySamples] using hclear)]
    rfl
  | some channelData =>
    rw [hb] at hclear hshape
    rw [getElem?_mixWetSamples _ _ c (channelData.map (fun _ => 0))
      (channelData.map (fun _ => 0))
      (by simpa [DryWetMixer.setWetMixProportion, DryWetMixer.pushDrySamples] using hclear)
      (by simpa using hshape)]
    rw [zipWith_blend_cleared]
    rfl

/-- C11: surplus output channels are silenced. For every processor state (any
gain and mix) and every buffer, a channel `c` with
`totalNumInputChannels ≤ c < totalNumOutputChannels` consists of zeros after
`processBlock`: it keeps its length and every sample read from it is `0`. -/
theorem processBlock_surplus_channels_silent (p : OverdriveAAPAudioProcessor)
    (buffer : AudioBuffer) (c : Nat)
    (h1 : p.totalNumInputChannels ≤ c) (h2 : c < p.totalNumOutputChannels) :
    (processBlock p buffer).2[c]? = (buffer[c]?).map (List.map (fun _ => 0))
      ∧ ∀ i v, (processBlock p buffer).2.getSample c i = some v → v = 0 := by
  have h := getElem?_processBlock_of_surplus p buffer c h1 h2
  refine ⟨h, ?_⟩
  intro i v hv
  unfold AudioBuffer.getSample at hv
  rw [h] at hv
  cases hb : buffer[c]? with
  | none => rw [hb] at hv; simp at hv
  | some channelData =>
    rw [hb] at hv
    simp only [Option.map_some', Option.some_bind, List.getElem?_map] at hv
    cases hi : channelData[i]? with
    | none => rw [hi] at hv; simp at hv
    | some s => rw [hi] at hv; simpa using hv.symm

/-- Witness of C11: one input and two output channels; the second channel,
holding `0.7` before the block, holds `0` after it. -/
theorem processBlock_surplus_channels_silent_witness :
    (processBlock
        { inputGain := 3, dryWetMix := 1 / 2, totalNumInputChannels := 1,
          totalNumOutputChannels := 2,
          dryWetMixer :=
            { spec := { sampleRate := 44100, maximumBlockSize := 1, numChannels := 2 },
              mixingRule := DryWetMixingRule.linear, mix := 1, drySamples := [] } }
        [[1 / 2], [7 / 10]]).2[1]? = some [0] := by
  have h := (processBlock_surplus_channels_silent
    { inputGain := 3, dryWetMix := 1 / 2, totalNumInputChannels := 1,
      totalNumOutputChannels := 2,
      dryWetMixer :=
        { spec := { sampleRate := 44100, maximumBlockSize := 1, numChannels := 2 },
          mixingRule := DryWetMixingRule.linear, mix := 1, drySamples := [] } }
    [[1 / 2], [7 / 10]] 1 (by decide) (by decide)).1
  rw [h]
  rfl

/-- C12: mix clamping. For every processor state, gain and buffer, a block
processed with the mix parameter at `-0.5` ends with the same buffer and mixer
state as with `0`, and one processed at `1.5` with the same as with `1`; in
general a mix value `m` acts as its clamp to `[0, 1]`. -/
theorem processBlock_mix_clamped (p : OverdriveAAPAudioProcessor) (buffer : AudioBuffer) :
    (processBlock { p with dryWetMix := -(1 / 2) } buffer).2
        = (processBlock { p with dryWetMix := 0 } buffer).2
      ∧ (processBlock { p with dryWetMix := 3 / 2 } buffer).2
        = (processBlock { p with dryWetMix := 1 } buffer).2
      ∧ (processBlock { p with dryWetMix := -(1 / 2) } buffer).1.dryWetMixer
        = (processBlock { p with dryWetMix := 0 } buffer).1.dryWetMixer
      ∧ (processBlock { p with dryWetMix := 3 / 2 } buffer).1.dryWetMixer
        = (processBlock { p with dryWetMix := 1 } buffer).1.dryWetMixer
      ∧ ∀ m : ℚ, (processBlock { p with dryWetMix := m } buffer).2
        = (processBlock { p with dryWetMix := max 0 (min 1 m) } buffer).2 := by
  have hlow : max 0 (min 1 (-(1 / 2) : ℚ)) = max 0 (min 1 (0 : ℚ)) := by norm_num
  have hhigh : max 0 (min 1 (3 / 2 : ℚ)) = max 0 (min 1 (1 : ℚ)) := by norm_num
  have hidem : ∀ m : ℚ, max 0 (min 1 (max 0 (min 1 m))) = max 0 (min 1 m) := by
    intro m
    exact clamp_of_mem _ (le_max_left 0 _) (max_le (by norm_num) (min_le_left 1 m))
  refine ⟨?_, ?_, ?_, ?_, ?_⟩
  · simp only [processBlock, DryWetMixer.setWetMixProportion, hlow]
  · simp only [processBlock, DryWetMixer.setWetMixProportion, hhigh]
  · simp only [processBlock, DryWetMixer.setWetMixProportion, hlow]
  · simp only [processBlock, DryWetMixer.setWetMixProportion, hhigh]
  · intro m
    simp only [processBlock, DryWetMixer.setWetMixProportion, hidem]

/-- C13: configuration errors fail fast. `prepareToPlay` called with a sample
rate `≤ 0` or a block size `≤ 0` ends in a contract violation: it returns no
processor state, so the mixer is not left prepared with the invalid
configuration. -/
theorem prepareToPlay_fails_fast (p : OverdriveAAPAudioProcessor) (sampleRate : ℚ)
    (samplesPerBlock : Int) (h : sampleRate ≤ 0 ∨ samplesPerBlock ≤ 0) :
    ∃ violation, prepareToPlay p sampleRate samplesPerBlock = Except.error violation := by
  simp only [prepareToPlay, DryWetMixer.prepare]
  by_cases hs : sampleRate ≤ 0
  · exact ⟨ContractViolation.invalidSampleRate, by rw [if_pos hs]⟩
  · have hb : samplesPerBlock ≤ 0 := h.resolve_left hs
    exact ⟨ContractViolation.invalidBlockSize, by rw [if_neg hs, if_pos hb]⟩

/-- Witness of C13: a stereo processor prepared with sample rate `44100` and
block size `0`. -/
theorem prepareToPlay_fails_fast_witness :
    ∃ violation,
      prepareToPlay
          { inputGain := 1, dryWetMix := 1 / 2, totalNumInputChannels := 2,
            totalNumOutputChannels := 2,
            dryWetMixer :=
              { spec := { sampleRate := 48000, maximumBlockSize := 512, numChannels := 2 },
                mixingRule := DryWetMixingRule.linear, mix := 1, drySamples := [] } }
          44100 0 = Except.error violation :=
  prepareToPlay_fails_fast _ 44100 0 (Or.inr (le_refl 0))

/-! ## Structure of the shaping curve -/

/-- The value `out` holds when an iteration starts does not matter: the sample
loop with `out` explicit computes `shapeSample` of each sample. -/
theorem sampleLoop_eq_map (g out : ℚ) (channelData : List ℚ) :
    sampleLoop g out channelData = channelData.map (shapeSample g) := by
  induction channelData generalizing out with
  | nil => rfl
  | cons x rest ih =>
    simp only [sampleLoop, List.map_cons, ih]
    rfl

/-- The loop with `out` explicit and the loop written as a map agree. -/
theorem channelLoop_eq_shapingLoop (n : Nat) (g : ℚ) (buffer : AudioBuffer) :
    channelLoop n g buffer = shapingLoop n g buffer := by
  unfold channelLoop shapingLoop
  congr 1
  funext channel channelData
  rw [sampleLoop_eq_map]

/-- The shaper commutes with negation of the sample. -/
theorem shapeSample_neg_sample (g x : ℚ) : shapeSample g (-x) = -shapeSample g x := by
  rcases lt_trichotomy (x * g) 0 with h | h | h
  · have h' : 0 < -x * g := by linarith
    rw [shapeSample_of_neg g x h, shapeSample_of_pos g (-x) h']
    have e : -x * g = -(x * g) := by ring
    rw [e]
    split_ifs <;> ring
  · have h' : -x * g = 0 := by linarith
    rw [shapeSample_of_zero g x h, shapeSample_of_zero g (-x) h']
    ring
  · have h' : -x * g < 0 := by linarith
    rw [shapeSample_of_pos g x h, shapeSample_of_neg g (-x) h']
    have e : -x * g = -(x * g) := by ring
    rw [e]
    simp only [neg_neg]
    split_ifs <;> ring

/-- A positive gain-scaled input gives a positive output. -/
theorem shapeSample_pos_of_pos (g x : ℚ) (h : 0 < x * g) : 0 < shapeSample g x := by
  rw [shapeSample_of_pos g x h]
  split_ifs with h1 h2
  · norm_num
  · have h3 : x * g ≤ 11184811 / 16777216 := not_lt.mp h1
    nlinarith
  · linarith

/-- A negative gain-scaled input gives a negative output. -/
theorem shapeSample_neg_of_neg (g x : ℚ) (h : x * g < 0) : shapeSample g x < 0 := by
  rw [shapeSample_of_neg g x h]
  split_ifs with h1 h2
  · norm_num
  · have h3 : -(x * g) ≤ 11184811 / 16777216 := not_lt.mp h1
    nlinarith
  · linarith

/-- The shaper between the hard-limit regions, as a function of `x * g`. -/
theorem shapeSample_of_abs_le (g x : ℚ) (h : |x * g| ≤ 2 / 3) :
    shapeSample g x =
      if x * g > 1 / 3 then (3 - (2 - 3 * (x * g)) ^ 2) / 3
      else if x * g < -(1 / 3) then -((3 - (2 + 3 * (x * g)) ^ 2) / 3)
      else 2 * (x * g) := by
  obtain ⟨hl, hu⟩ := abs_le.mp h
  rcases lt_trichotomy (x * g) 0 with h0 | h0 | h0
  · rw [shapeSample_of_neg g x h0]
    split_ifs <;> first | rfl | (exfalso; linarith)
  · rw [shapeSample_of_zero g x h0, h0]
    norm_num
  · rw [shapeSample_of_pos g x h0]
    split_ifs <;> first | rfl | (exfalso; linarith)

/-- Between the hard-limit regions the shaper is non-decreasing in `x * g`. -/
theorem shapeSample_le_of_scaled_le (g x y : ℚ) (hxy : x * g ≤ y * g)
    (hx : |x * g| ≤ 2 / 3) (hy : |y * g| ≤ 2 / 3) : shapeSample g x ≤ shapeSample g y := by
  rw [shapeSample_of_abs_le g x hx, shapeSample_of_abs_le g y hy]
  obtain ⟨hal, hau⟩ := abs_le.mp hx
  obtain ⟨hbl, hbu⟩ := abs_le.mp hy
  generalize x * g = a at hxy hal hau ⊢
  generalize y * g = b at hxy hbl hbu ⊢
  by_cases ha : a > 1 / 3
  · have hb : b > 1 / 3 := lt_of_lt_of_le ha hxy
    rw [if_pos ha, if_pos hb]
    nlinarith [mul_nonneg (sub_nonneg.mpr hxy) (show (0 : ℚ) ≤ 4 - 3 * a - 3 * b by linarith)]
  · rw [if_neg ha]
    by_cases ha2 : a < -(1 / 3)
    · rw [if_pos ha2]
      have hsq : (2 + 3 * a) ^ 2 ≤ 1 := by
        nlinarith [mul_nonneg (show (0 : ℚ) ≤ 2 + 3 * a by linarith)
          (show (0 : ℚ) ≤ -1 - 3 * a by linarith)]
      by_cases hb : b > 1 / 3
      · rw [if_pos hb]
        nlinarith [mul_nonneg (show (0 : ℚ) ≤ 2 - 3 * b by linarith)
          (show (0 : ℚ) ≤ 3 * b - 1 by linarith)]
      · rw [if_neg hb]
        by_cases hb2 : b < -(1 / 3)
        · rw [if_pos hb2]
          nlinarith [mul_nonneg (sub_nonneg.mpr hxy)
            (show (0 : ℚ) ≤ 4 + 3 * a + 3 * b by linarith)]
        · rw [if_neg hb2]
          linarith
    · rw [if_neg ha2]
      by_cases hb : b > 1 / 3
      · rw [if_pos hb]
        nlinarith [mul_nonneg (show (0 : ℚ) ≤ 2 - 3 * b by linarith)
          (show (0 : ℚ) ≤ 3 * b - 1 by linarith)]
      · rw [if_neg hb, if_neg (by linarith)]
        linarith

/-- C14: per-sample independence of the shaping loop. If two buffers hold the
same sample at position `(c, i)` of an input channel and are processed with the
same gain, the loop stores the same value at `(c, i)` in both, whatever the other
samples and channels hold. This is proved for the loop with the variable `out`
carried across iterations as well as for the loop written as a map; the value
`out` holds when an iteration starts never reaches the stored sample. -/
theorem shaping_per_sample_independent (n : Nat) (g : ℚ) (buffer1 buffer2 : AudioBuffer)
    (c i : Nat) (hc : c < n) (h : buffer1.getSample c i = buffer2.getSample c i) :
    (channelLoop n g buffer1).getSample c i = (channelLoop n g buffer2).getSample c i
      ∧ (shapingLoop n g buffer1).getSample c i = (shapingLoop n g buffer2).getSample c i
      ∧ ∀ (out1 out2 : ℚ) (channelData : List ℚ),
          sampleLoop g out1 channelData = sampleLoop g out2 channelData := by
  have hs : (shapingLoop n g buffer1).getSample c i = (shapingLoop n g buffer2).getSample c i := by
    rw [getSample_shapingLoop n g buffer1 c i hc, getSample_shapingLoop n g buffer2 c i hc, h]
  refine ⟨?_, hs, ?_⟩
  · rw [channelLoop_eq_shapingLoop, channelLoop_eq_shapingLoop]
    exact hs
  · intro out1 out2 channelData
    rw [sampleLoop_eq_map, sampleLoop_eq_map]

/-- Witness of C14: two buffers of different shape and content that agree on the
first sample of the first channel. -/
theorem shaping_per_sample_independent_witness :
    (channelLoop 1 1 [[1 / 2, 1 / 10]]).getSample 0 0
      = (channelLoop 1 1 [[1 / 2, 9 / 10, -1], [1 / 5]]).getSample 0 0 :=
  (shaping_per_sample_independent 1 1 [[1 / 2, 1 / 10]] [[1 / 2, 9 / 10, -1], [1 / 5]]
    0 0 (by decide) rfl).1

/-- C15: odd symmetry of the shaper. For every sample `x` and gain `g`, the
shaped output for `-x` is the negation of the shaped output for `x`, in all three
regions and at the breakpoints. -/
theorem shaper_odd (g x : ℚ) : shapeSample g (-x) = -shapeSample g x :=
  shapeSample_neg_sample g x

/-- C16, as stated, fails: the value `1` is attained where `|x*g|` is not `2/3`.
The sample `thresh2 = 11184811 / 2^24`, a binary32 value, at gain 1 is stored by
the binary32 loop body as exactly `1`, and `|x*g| = thresh2` differs from `2/3`. -/
theorem shaper_reaches_one_off_two_thirds :
    round32 (11184811 / 16777216) = 11184811 / 16777216
      ∧ |shapeSample32 1 (11184811 / 16777216)| = 1
      ∧ |(11184811 / 16777216 : ℚ) * 1| ≠ 2 / 3 := by
  refine ⟨round32_thresh2, ?_, ?_⟩
  · rw [shapeSample32_thresh2]
    norm_num
  · norm_num [abs_of_pos]

/-- C16, amended: global bound of the shaper. For every sample `x` and every gain
`g`, with no range restriction, the shaped output has magnitude at most `1`, in
exact arithmetic and in binary32 alike. The bound is attained at the top of the
soft-knee region, which the strict `>` of the hard-limit test leaves to the
quadratic branch: in binary32 the sample `thresh2` at gain 1 is stored as exactly
`1` and `-thresh2` as exactly `-1`, and so is the binary32 value next below `2/3`. -/
theorem shaper_bound_attained :
    (∀ g x : ℚ, |shapeSample g x| ≤ 1)
      ∧ (∀ g x : ℚ, |shapeSample32 g x| ≤ 1)
      ∧ shapeSample32 1 (11184811 / 16777216) = 1
      ∧ shapeSample32 1 (-(11184811 / 16777216)) = -1
      ∧ shapeSample32 1 (11184810 / 16777216) = 1 :=
  ⟨abs_shapeSample_le_one, abs_shapeSample32_le_one, shapeSample32_thresh2,
    shapeSample32_neg_thresh2, shapeSample32_below_two_thirds⟩

/-- C17: monotonicity below the hard limit. For every gain `g ≥ 0` and samples
`x ≤ y` with `|x * g| ≤ 2/3` and `|y * g| ≤ 2/3`, the shaped output for `x` is at
most the shaped output for `y`. -/
theorem shaper_monotone_below_limit (g x y : ℚ) (hg : 0 ≤ g) (hxy : x ≤ y)
    (hx : |x * g| ≤ 2 / 3) (hy : |y * g| ≤ 2 / 3) : shapeSample g x ≤ shapeSample g y :=
  shapeSample_le_of_scaled_le g x y (mul_le_mul_of_nonneg_right hxy hg) hx hy

/-- Witness of C17: gain 1, `x = -1/2` in the negative soft knee and `y = 1/4`
in the linear region. -/
theorem shaper_monotone_below_limit_witness :
    shapeSample 1 (-(1 / 2)) ≤ shapeSample 1 (1 / 4) :=
  shaper_monotone_below_limit 1 (-(1 / 2)) (1 / 4) (by norm_num) (by norm_num)
    (by norm_num [abs_of_neg]) (by norm_num [abs_of_pos])

/-- C18: polarity preservation. For every sample `x` and gain `g`, the shaped
output has the sign of the gain-scaled input, `signum out = signum (x * g)`; in
particular the output is `0` if and only if `x * g` is `0`. -/
theorem shaper_preserves_polarity (g x : ℚ) :
    signum (shapeSample g x) = signum (x * g) ∧ (shapeSample g x = 0 ↔ x * g = 0) := by
  rcases lt_trichotomy (x * g) 0 with h | h | h
  · have hout := shapeSample_neg_of_neg g x h
    exact ⟨by rw [signum_of_neg hout, signum_of_neg h],
      ⟨fun hz => absurd hz (ne_of_lt hout), fun hz => absurd hz (ne_of_lt h)⟩⟩
  · have hout := shapeSample_of_zero g x h
    exact ⟨by rw [hout, h], ⟨fun _ => h, fun _ => hout⟩⟩
  · have hout := shapeSample_pos_of_pos g x h
    exact ⟨by rw [signum_of_pos hout, signum_of_pos h],
      ⟨fun hz => absurd hz (ne_of_gt hout), fun hz => absurd hz (ne_of_gt h)⟩⟩

end OverdriveAAP
